import Mathlib

set_option maxRecDepth 8000

/-!
Shallow embedding of `src/backend/utils/adt/uuid.c` (PostgreSQL's built-in
"uuid" type): the text codec (`string_to_uuid`, `uuid_out`), the byte-wise
comparator (`uuid_internal_cmp` / memcmp), the abbreviated-key sort support
(`uuid_abbrev_convert`, `uuid_abbrev_abort`), the stateful v7 generator
(`uuidv7`), and the timestamp extractor (`uuid_extract_timestamp`).

A UUID value is its 16 data bytes (`pg_uuid_t.data`), modelled as a
`List Nat` of length 16 whose entries are below 256.  Machine integers are
modelled as `Nat` with explicit `% 2 ^ w` where the C code can overflow:
`sequence_counter` is a `uint32_t`, `previous_timestamp` and the millisecond
clock value are `uint64_t`.  C bit operations on bytes are written
arithmetically, with the original operator noted beside each use:
`x >> 4` is `x / 16`, `x & 0x0F` is `x % 16`, `x & 0x3F` is `x % 64`,
`(x & 0xF0) == 0x70` is `x / 16 % 16 = 7`, and
`(x & 0xC0) == 0x80` is `x / 64 % 4 = 2` (exact for every `Nat`).
-/

namespace PgUuid

/-- Model of C `isxdigit` on the ASCII hexadecimal digits, as used by
`string_to_uuid`. -/
def isxdigit (c : Char) : Bool :=
  ('0' ≤ c && c ≤ '9') || ('a' ≤ c && c ≤ 'f') || ('A' ≤ c && c ≤ 'F')

/-- Value of one validated hexadecimal digit, as computed by
`strtoul(str_buf, NULL, 16)` on a two-digit buffer (case-insensitive). -/
def hexDigitVal (c : Char) : Nat :=
  if '0' ≤ c && c ≤ '9' then c.toNat - '0'.toNat
  else if 'a' ≤ c && c ≤ 'f' then c.toNat - 'a'.toNat + 10
  else if 'A' ≤ c && c ≤ 'F' then c.toNat - 'A'.toNat + 10
  else 0

/-- The `hex_chars` table of `uuid_out`. -/
def hex_chars : List Char := "0123456789abcdef".toList

/-- `hex_chars[n]` for a nibble `n < 16`. -/
def hexChar (n : Nat) : Char := hex_chars.getD n '0'

/-- The two characters `uuid_out` emits for one byte:
`hex_chars[data[i] >> 4]` then `hex_chars[data[i] & 0x0F]`. -/
def hexPair (b : Nat) : List Char := [hexChar (b / 16), hexChar (b % 16)]

/--
The parsing loop of `string_to_uuid` (uuid.c lines 111-127): for each output
byte index `i` from 0 to 15, require two hex digits (a missing character, i.e.
the terminating NUL, fails `isxdigit` exactly as the explicit NUL checks in
the C code do), store `strtoul` of the two digits, and afterwards consume one
optional hyphen when `src[0] == '-' && (i % 2) == 1 && i < UUID_LEN - 1`.
`count` is the number of bytes still to read (`count = 16 - i`); the result
is the bytes read plus the unconsumed remainder of the input.
-/
def parseLoop : Nat → Nat → List Char → Option (List Nat × List Char)
  | 0, _, src => some ([], src)
  | count + 1, i, src =>
    match src with
    | c1 :: c2 :: rest =>
      if isxdigit c1 && isxdigit c2 then
        let b := hexDigitVal c1 * 16 + hexDigitVal c2
        let rest' := if rest.head? = some '-' ∧ i % 2 = 1 ∧ i < 15 then rest.tail else rest
        match parseLoop count (i + 1) rest' with
        | some (bs, r) => some (b :: bs, r)
        | none => none
      else none
    | _ => none

/--
`string_to_uuid` (uuid.c lines 98-146): an optional opening brace, 32 hex
digits read two per byte with optional hyphens as in `parseLoop`, the
matching closing brace when one was opened, and nothing after.  `none` is
the soft `ereturn` syntax-error path.
-/
def string_to_uuid (source : List Char) : Option (List Nat) :=
  let braces := source.head? = some '\x7b'
  let src := if braces then source.tail else source
  match parseLoop 16 0 src with
  | none => none
  | some (bs, rest) =>
    if braces then
      match rest with
      | c :: rest2 => if c = '\x7d' ∧ rest2 = [] then some bs else none
      | [] => none
    else if rest = [] then some bs else none

/-- The output loop of `uuid_out` (uuid.c lines 68-86): before byte `i` for
`i = 4, 6, 8, 10` emit a hyphen, then the two hex characters of the byte. -/
def uuid_out_loop : Nat → List Nat → List Char
  | _, [] => []
  | i, b :: bs =>
    (if i = 4 ∨ i = 6 ∨ i = 8 ∨ i = 10 then ['-'] else []) ++
      hexPair b ++ uuid_out_loop (i + 1) bs

/-- `uuid_out` (uuid.c lines 56-90): canonical 8-4-4-4-12 lowercase text. -/
def uuid_out (data : List Nat) : List Char := uuid_out_loop 0 data

/-- Three-way unsigned byte-wise comparison: `memcmp(arg1->data, arg2->data,
UUID_LEN)` as used by `uuid_internal_cmp` (uuid.c lines 171-175); `.lt`,
`.eq`, `.gt` stand for the negative, zero and positive C results. -/
def memcmpBytes : List Nat → List Nat → Ordering
  | a :: as, b :: bs =>
    if a < b then .lt else if b < a then .gt else memcmpBytes as bs
  | _, _ => .eq

/-- The process-wide generator state of `uuidv7` (uuid.c lines 439-440):
`static uint32_t sequence_counter; static uint64_t previous_timestamp = 0;`.
Values are the `Nat` values of the machine words, so below `2 ^ 32` and
`2 ^ 64` respectively. -/
structure GenState where
  sequence_counter : Nat
  previous_timestamp : Nat
deriving DecidableEq, Repr

/--
The state update and effective-timestamp choice of `uuidv7` (uuid.c lines
519-548).  `tms` is the millisecond clock value `tp.tv_sec * 1000 +
tp.tv_usec / 1000` computed in `uint64_t`, hence the `% 2 ^ 64` at entry.
If `tms <= previous_timestamp` the counter is incremented (`uint32_t`
arithmetic); on 18-bit overflow (`> 0x3ffff`) the counter is zeroed and
`previous_timestamp` incremented (`uint64_t` arithmetic); then `tms =
previous_timestamp`.  Otherwise `sequence_counter = 0` and
`previous_timestamp = tms`.  Returns the new state together with the value
the local `tms` holds afterwards (the effective timestamp laid into bytes
0-5).
-/
def uuidv7_update (st : GenState) (tms0 : Nat) : GenState × Nat :=
  let tms := tms0 % 2 ^ 64
  if tms ≤ st.previous_timestamp then
    let sc := (st.sequence_counter + 1) % 2 ^ 32
    if sc > 0x3ffff then
      let pt := (st.previous_timestamp + 1) % 2 ^ 64
      (⟨0, pt⟩, pt)
    else
      (⟨sc, st.previous_timestamp⟩, st.previous_timestamp)
  else
    (⟨0, tms⟩, tms)

/--
The byte layout part of `uuidv7` (uuid.c lines 550-577), taking the
effective timestamp `tms`, the post-update `sequence_counter` value `sc`,
and the 8 bytes `rand` that `pg_strong_random(&uuid->data[8], UUID_LEN - 8)`
delivers.  First `data[0..5]` receive the big-endian 48-bit timestamp and
`data[6..8]` the counter (`data[6] = sc >> 14`, `data[7] = sc >> 6`,
`data[8] = (unsigned char) sc`); then the random fill overwrites
`data[8..15]` (including the counter bits just placed in `data[8]`);
finally `data[6] = (data[6] & 0x0F) | 0x70` and
`data[8] = (data[8] & 0x3F) | 0x80`.
-/
def uuidv7_bytes (tms sc : Nat) (rand : List Nat) : List Nat :=
  let withCounter : List Nat :=
    [tms / 2 ^ 40 % 256, tms / 2 ^ 32 % 256, tms / 2 ^ 24 % 256,
     tms / 2 ^ 16 % 256, tms / 2 ^ 8 % 256, tms % 256,
     sc / 2 ^ 14 % 256, sc / 2 ^ 6 % 256, sc % 256]
  let withRandom := withCounter.take 8 ++ rand
  let withVersion := withRandom.set 6 (withRandom.getD 6 0 % 16 + 0x70)
  withVersion.set 8 (withVersion.getD 8 0 % 64 + 0x80)

/-- One whole call of `uuidv7` (uuid.c lines 511-580): state transition plus
the returned 16 bytes, for a given clock reading and random outcome. -/
def uuidv7_step (st : GenState) (tms0 : Nat) (rand : List Nat) :
    GenState × List Nat :=
  let (st', tms) := uuidv7_update st tms0
  (st', uuidv7_bytes tms st'.sequence_counter rand)

/-- Lexicographic order on `(previous_timestamp, sequence_counter)`, the
order the spec's generator-state invariant speaks about. -/
def pairLE (a b : GenState) : Prop :=
  a.previous_timestamp < b.previous_timestamp ∨
    (a.previous_timestamp = b.previous_timestamp ∧
      a.sequence_counter ≤ b.sequence_counter)

instance (a b : GenState) : Decidable (pairLE a b) := by
  unfold pairLE; infer_instance

/-- Big-endian value of a byte list: byte 0 most significant, radix 256. -/
def beBytesVal : List Nat → Nat
  | [] => 0
  | b :: bs => b * 256 ^ bs.length + beBytesVal bs

/--
`uuid_abbrev_convert` (uuid.c lines 361-395) without its estimator side
effect: `memcpy(&res, authoritative->data, sizeof(Datum))` followed by
`res = DatumBigEndianToNative(res)`.  With an 8-byte `Datum`, on a
big-endian host the `memcpy` already stores the first 8 data bytes as a
big-endian integer and `DatumBigEndianToNative` is the identity; on a
little-endian host the `memcpy` stores them reversed and
`DatumBigEndianToNative` is the byte swap; on either host the unsigned
value of the returned word is the big-endian value of the 8-byte prefix.
-/
def uuid_abbrev_convert (data : List Nat) : Nat := beBytesVal (data.take 8)

/-- Three-way unsigned integer comparison of two abbreviated-key words, the
`ssup_datum_unsigned_cmp` comparator applied to converted keys. -/
def natCmp (a b : Nat) : Ordering :=
  if a < b then .lt else if b < a then .gt else .eq

/-- The `uuid_sortsupport_state` fields `uuid_abbrev_abort` reads and
writes (uuid.c lines 31-37): `input_count` is an `int64`, `estimating` the
flag that permanently disables estimation once cleared.  The
`hyperLogLogState` itself is external (`lib/hyperloglog.c` is not part of
this slice); the estimate it would return is passed to `uuid_abbrev_abort`
as an explicit argument. -/
structure UuidSortState where
  input_count : Int
  estimating : Bool
deriving DecidableEq, Repr

/--
`uuid_abbrev_abort` (uuid.c lines 295-352).  `memtupcount` is the buffered
row count the sort passes in; `abbr_card` stands for
`estimateHyperLogLog(&uss->abbr_card)`, the C `double` modelled as an exact
rational.  Returns the abort decision and the updated state.
-/
def uuid_abbrev_abort (memtupcount : Int) (abbr_card : ℚ)
    (uss : UuidSortState) : Bool × UuidSortState :=
  if memtupcount < 10000 ∨ uss.input_count < 10000 ∨ uss.estimating = false then
    (false, uss)
  else if abbr_card > 100000 then
    (false, { uss with estimating := false })
  else if abbr_card < (uss.input_count : ℚ) / 2000 + 1 / 2 then
    (true, uss)
  else
    (false, uss)

/-- Modelled from the spec: the engine's timestamp-epoch constants, consumed
by `uuid_extract_timestamp` from the engine's datetime headers, which are
outside this slice ("converted to the engine's timestamp epoch by exact
integer arithmetic").  Julian day number of 2000-01-01, the engine's
timestamp epoch. -/
def POSTGRES_EPOCH_JDATE : Int := 2451545

/-- Modelled from the spec: Julian day number of 1970-01-01, the Unix
epoch. -/
def UNIX_EPOCH_JDATE : Int := 2440588

/-- Modelled from the spec: Julian day number of 1582-10-15, the Gregorian
calendar epoch used by v1/v6 timestamps. -/
def GREGORIAN_EPOCH_JDATE : Int := 2299161

/-- Seconds per day. -/
def SECS_PER_DAY : Int := 86400

/-- Microseconds per second. -/
def USECS_PER_SEC : Int := 1000000

/--
`uuid_extract_timestamp` (uuid.c lines 586-649).  `none` models the SQL
NULL result.  The variant gate is `(data[8] & 0xC0) != 0x80`; the version
dispatch tests `(data[6] & 0xF0)` against `0x70`, `0x10`, `0x60` in that
order.  The v7 branch reassembles the big-endian 48-bit millisecond value
from bytes 0-5 exactly as the C code sums it and converts milliseconds to
microseconds before shifting the epoch; the v1 and v6 branches reassemble
their scattered 60-bit 100-nanosecond counts and divide by 10.  All
arithmetic fits in `int64` (at most 60-bit values times 1000 or divided by
10), so plain `Int` arithmetic is exact.
-/
def uuid_extract_timestamp (data : List Nat) : Option Int :=
  if data.getD 8 0 / 64 % 4 ≠ 2 then none
  else if data.getD 6 0 / 16 % 16 = 7 then
    let tms : Nat :=
      data.getD 5 0 + data.getD 4 0 * 2 ^ 8 + data.getD 3 0 * 2 ^ 16 +
        data.getD 2 0 * 2 ^ 24 + data.getD 1 0 * 2 ^ 32 + data.getD 0 0 * 2 ^ 40
    some ((tms : Int) * 1000 -
      (POSTGRES_EPOCH_JDATE - UNIX_EPOCH_JDATE) * SECS_PER_DAY * USECS_PER_SEC)
  else if data.getD 6 0 / 16 % 16 = 1 then
    let tms : Nat :=
      data.getD 0 0 * 2 ^ 24 + data.getD 1 0 * 2 ^ 16 + data.getD 2 0 * 2 ^ 8 +
        data.getD 3 0 + data.getD 4 0 * 2 ^ 40 + data.getD 5 0 * 2 ^ 32 +
        data.getD 6 0 % 16 * 2 ^ 56 + data.getD 7 0 * 2 ^ 48
    some ((tms / 10 : Nat) -
      (POSTGRES_EPOCH_JDATE - GREGORIAN_EPOCH_JDATE) * SECS_PER_DAY * USECS_PER_SEC)
  else if data.getD 6 0 / 16 % 16 = 6 then
    let tms : Nat :=
      data.getD 0 0 * 2 ^ 52 + data.getD 1 0 * 2 ^ 44 + data.getD 2 0 * 2 ^ 36 +
        data.getD 3 0 * 2 ^ 28 + data.getD 4 0 * 2 ^ 20 + data.getD 5 0 * 2 ^ 12 +
        data.getD 6 0 % 16 * 2 ^ 8 + data.getD 7 0
    some ((tms / 10 : Nat) -
      (POSTGRES_EPOCH_JDATE - GREGORIAN_EPOCH_JDATE) * SECS_PER_DAY * USECS_PER_SEC)
  else none

/--
Input builder for exercising the parser: renders each byte as two lowercase
hex characters and places a hyphen after the byte at index `i` exactly when
`f i` is true, except after the last byte (matching the 32-digit stream with
optional group separators the parser's grammar is about; index `i` counts
from the first byte).
-/
def renderWith (f : Nat → Bool) : Nat → List Nat → List Char
  | _, [] => []
  | _, [b] => hexPair b
  | i, b :: b' :: bs =>
    hexPair b ++ (if f i then ['-'] else []) ++ renderWith f (i + 1) (b' :: bs)

/-- The canonical hyphen placement of `uuid_out`: a hyphen after bytes 3, 5,
7 and 9 (equivalently before bytes 4, 6, 8 and 10). -/
def fCanon : Nat → Bool := fun j => decide (j = 3 ∨ j = 5 ∨ j = 7 ∨ j = 9)

end PgUuid

namespace PgUuid

lemma hexChar_isxdigit : ∀ n, n < 16 → isxdigit (hexChar n) = true := by decide

lemma hexDigitVal_hexChar : ∀ n, n < 16 → hexDigitVal (hexChar n) = n := by decide

lemma hexChar_ne_hyphen : ∀ n, n < 16 → ¬(hexChar n = '-') := by decide

lemma hexChar_ne_lbrace : ∀ n, n < 16 → ¬(hexChar n = '\x7b') := by decide

lemma hexChar_mem : ∀ n, n < 16 → hexChar n ∈ hex_chars := by decide

lemma isxdigit_hyphen_false : isxdigit '-' = false := by decide

lemma hexPair_byte {b : Nat} (hb : b < 256) :
    hexDigitVal (hexChar (b / 16)) * 16 + hexDigitVal (hexChar (b % 16)) = b := by
  rw [hexDigitVal_hexChar _ (by omega), hexDigitVal_hexChar _ (by omega)]
  omega

lemma renderWith_cons_head (f : Nat → Bool) (i b : Nat) (bs : List Nat) :
    (renderWith f i (b :: bs)).head? = some (hexChar (b / 16)) := by
  cases bs <;> simp [renderWith, hexPair]

lemma renderWith_cons_ne_nil (f : Nat → Bool) (i b : Nat) (bs : List Nat) :
    renderWith f i (b :: bs) ≠ [] := by
  cases bs <;> simp [renderWith, hexPair]

/-- The parsing loop accepts any hyphen placement that puts hyphens only
after odd byte indices below 15, and returns exactly the rendered bytes. -/
lemma parseLoop_renderWith (f : Nat → Bool) :
    ∀ (bs : List Nat) (i : Nat) (tail : List Char),
      (∀ b ∈ bs, b < 256) →
      (∀ k, k + 1 < bs.length → f (i + k) = true → (i + k) % 2 = 1 ∧ i + k < 15) →
      tail.head? ≠ some '-' →
      parseLoop bs.length i (renderWith f i bs ++ tail) = some (bs, tail) := by
  intro bs
  induction bs with
  | nil => intro i tail _ _ _; simp [renderWith, parseLoop]
  | cons b bs ih =>
    intro i tail hb hflag htail
    have hb0 : b < 256 := hb b (by simp)
    cases bs with
    | nil =>
      simp only [renderWith, hexPair, List.length_cons, List.length_nil,
        List.cons_append, List.nil_append, parseLoop,
        hexChar_isxdigit _ (by omega : b / 16 < 16),
        hexChar_isxdigit _ (by omega : b % 16 < 16), Bool.and_self, if_true]
      simp [htail, hexPair_byte hb0]
    | cons b' bs' =>
      have hrec : parseLoop (b' :: bs').length (i + 1)
          (renderWith f (i + 1) (b' :: bs') ++ tail) = some (b' :: bs', tail) := by
        apply ih (i + 1) tail (fun x hx => hb x (by simp [hx]))
        · intro k hk hfk
          have := hflag (k + 1) (by simpa using Nat.succ_lt_succ hk)
            (by rw [show i + (k + 1) = i + 1 + k by omega]; exact hfk)
          omega
        · exact htail
      have hb' : b' < 256 := hb b' (by simp)
      have hh1 : (renderWith f (i + 1) (b' :: bs')).head? = some (hexChar (b' / 16)) :=
        renderWith_cons_head f (i + 1) b' bs'
      have hnil := renderWith_cons_ne_nil f (i + 1) b' bs'
      have hne' : ¬(hexChar (b' / 16) = '-') := hexChar_ne_hyphen _ (by omega)
      rw [show (b' :: bs').length = bs'.length + 1 from rfl] at hrec
      simp only [parseLoop] at hrec
      by_cases hf : f i = true
      · have hcond : i % 2 = 1 ∧ i < 15 := hflag 0 (by simp) (by simpa using hf)
        simp only [renderWith, hexPair, hf, if_true, List.cons_append,
          List.append_assoc, List.nil_append, List.length_cons, parseLoop,
          hexChar_isxdigit _ (by omega : b / 16 < 16),
          hexChar_isxdigit _ (by omega : b % 16 < 16), Bool.and_self, if_true]
        simp [hcond, hexPair_byte hb0]
        simp only [Bool.and_eq_true] at hrec
        rw [hrec]
      · replace hf : f i = false := by simpa using hf
        simp only [renderWith, hexPair, hf, if_false, List.cons_append,
          List.append_assoc, List.nil_append, List.length_cons, parseLoop,
          hexChar_isxdigit _ (by omega : b / 16 < 16),
          hexChar_isxdigit _ (by omega : b % 16 < 16), Bool.and_self, if_true]
        simp [hh1, hnil, hne', hexPair_byte hb0]
        simp only [Bool.and_eq_true] at hrec
        rw [hrec]

/-- A hyphen placed after an even byte index, or at an index of 15 or more
(other than after the final byte, where none is rendered), makes the parsing
loop fail: it is left unconsumed and the next iteration rejects it as a
non-hex character. -/
lemma parseLoop_renderWith_bad (f : Nat → Bool) :
    ∀ (bs : List Nat) (i : Nat) (tail : List Char),
      (∀ b ∈ bs, b < 256) →
      (∃ k, k + 1 < bs.length ∧ f (i + k) = true ∧ ¬((i + k) % 2 = 1 ∧ i + k < 15)) →
      parseLoop bs.length i (renderWith f i bs ++ tail) = none := by
  intro bs
  induction bs with
  | nil =>
    intro i tail _ hbad
    obtain ⟨k, hk, -, -⟩ := hbad
    simp at hk
  | cons b bs ih =>
    intro i tail hb hbad
    obtain ⟨k, hk, hfk, hkcond⟩ := hbad
    have hb0 : b < 256 := hb b (by simp)
    cases bs with
    | nil => simp at hk
    | cons b' bs' =>
      have hb' : b' < 256 := hb b' (by simp)
      by_cases hbad0 : f i = true ∧ ¬(i % 2 = 1 ∧ i < 15)
      · obtain ⟨hf0, hc0⟩ := hbad0
        obtain ⟨X, hX⟩ : ∃ X, renderWith f (i + 1) (b' :: bs') = hexChar (b' / 16) :: X := by
          cases bs' <;> exact ⟨_, rfl⟩
        simp [renderWith, hexPair, parseLoop, hf0, hc0, hX,
          hexChar_isxdigit _ (by omega : b / 16 < 16),
          hexChar_isxdigit _ (by omega : b % 16 < 16), isxdigit_hyphen_false]
      · push_neg at hbad0
        obtain ⟨k', rfl⟩ : ∃ k', k = k' + 1 := by
          refine ⟨k - 1, ?_⟩
          rcases Nat.eq_zero_or_pos k with rfl | hpos
          · exact absurd (hbad0 (by simpa using hfk)) (by simpa using hkcond)
          · omega
        have hrec : parseLoop (b' :: bs').length (i + 1)
            (renderWith f (i + 1) (b' :: bs') ++ tail) = none := by
          apply ih (i + 1) tail (fun x hx => hb x (by simp [hx]))
          refine ⟨k', by simpa using hk, ?_, ?_⟩
          · rw [show i + 1 + k' = i + (k' + 1) by omega]; exact hfk
          · rw [show i + 1 + k' = i + (k' + 1) by omega]; exact hkcond
        have hh1 : (renderWith f (i + 1) (b' :: bs')).head? = some (hexChar (b' / 16)) :=
          renderWith_cons_head f (i + 1) b' bs'
        have hnil := renderWith_cons_ne_nil f (i + 1) b' bs'
        have hne' : ¬(hexChar (b' / 16) = '-') := hexChar_ne_hyphen _ (by omega)
        rw [show (b' :: bs').length = bs'.length + 1 from rfl] at hrec
        simp only [parseLoop] at hrec
        by_cases hf : f i = true
        · have hcond : i % 2 = 1 ∧ i < 15 := hbad0 hf
          simp only [renderWith, hexPair, hf, if_true, List.cons_append,
            List.append_assoc, List.nil_append, List.length_cons, parseLoop,
            hexChar_isxdigit _ (by omega : b / 16 < 16),
            hexChar_isxdigit _ (by omega : b % 16 < 16), Bool.and_self, if_true]
          simp [hcond]
          simp only [Bool.and_eq_true] at hrec
          rw [hrec]
        · replace hf : f i = false := by simpa using hf
          simp only [renderWith, hexPair, hf, if_false, List.cons_append,
            List.append_assoc, List.nil_append, List.length_cons, parseLoop,
            hexChar_isxdigit _ (by omega : b / 16 < 16),
            hexChar_isxdigit _ (by omega : b % 16 < 16), Bool.and_self, if_true]
          simp [hh1, hnil, hne']
          simp only [Bool.and_eq_true] at hrec
          rw [hrec]

/-- Sixteen bytes rendered with hyphens only after odd byte indices below 15
are accepted by `string_to_uuid` and parse back to exactly those bytes. -/
lemma string_to_uuid_renderWith (f : Nat → Bool) (bs : List Nat)
    (h16 : bs.length = 16) (hb : ∀ b ∈ bs, b < 256)
    (hflag : ∀ k, k < 15 → f k = true → k % 2 = 1) :
    string_to_uuid (renderWith f 0 bs) = some bs := by
  obtain ⟨b, rest, rfl⟩ : ∃ b rest, bs = b :: rest := by
    cases bs with
    | nil => simp at h16
    | cons b rest => exact ⟨b, rest, rfl⟩
  have hb0 : b < 256 := hb b (by simp)
  have hloop : parseLoop (b :: rest).length 0 (renderWith f 0 (b :: rest) ++ []) =
      some (b :: rest, []) := by
    apply parseLoop_renderWith f (b :: rest) 0 [] hb
    · intro k hk hfk
      have h1 : k < 15 := by rw [h16] at hk; omega
      refine ⟨?_, by omega⟩
      simpa using hflag k h1 (by simpa using hfk)
    · simp
  rw [List.append_nil, h16] at hloop
  have hhead : (renderWith f 0 (b :: rest)).head? = some (hexChar (b / 16)) :=
    renderWith_cons_head f 0 b rest
  have hnb : ¬((renderWith f 0 (b :: rest)).head? = some '\x7b') := by
    rw [hhead]
    intro h
    exact hexChar_ne_lbrace (b / 16) (by omega) (by simpa using h)
  simp [string_to_uuid, hnb, hloop]

/-- Sixteen bytes rendered with some hyphen after an even byte index below
15 are rejected by `string_to_uuid`. -/
lemma string_to_uuid_renderWith_bad (f : Nat → Bool) (bs : List Nat)
    (h16 : bs.length = 16) (hb : ∀ b ∈ bs, b < 256)
    (k : Nat) (hk : k < 15) (hfk : f k = true) (hkbad : k % 2 = 0) :
    string_to_uuid (renderWith f 0 bs) = none := by
  obtain ⟨b, rest, rfl⟩ : ∃ b rest, bs = b :: rest := by
    cases bs with
    | nil => simp at h16
    | cons b rest => exact ⟨b, rest, rfl⟩
  have hb0 : b < 256 := hb b (by simp)
  have hloop : parseLoop (b :: rest).length 0 (renderWith f 0 (b :: rest) ++ []) =
      none := by
    apply parseLoop_renderWith_bad f (b :: rest) 0 []  hb
    exact ⟨k, by rw [h16]; omega, by simpa using hfk, by omega⟩
  rw [List.append_nil, h16] at hloop
  have hhead : (renderWith f 0 (b :: rest)).head? = some (hexChar (b / 16)) :=
    renderWith_cons_head f 0 b rest
  have hnb : ¬((renderWith f 0 (b :: rest)).head? = some '\x7b') := by
    rw [hhead]
    intro h
    exact hexChar_ne_lbrace (b / 16) (by omega) (by simpa using h)
  simp [string_to_uuid, hnb, hloop]

/-- `uuid_out`'s loop emits exactly the canonical 8-4-4-4-12 rendering: its
hyphen before bytes 4, 6, 8 and 10 is the hyphen after bytes 3, 5, 7 and
9. -/
lemma uuid_out_loop_eq_render : ∀ (bs : List Nat) (i : Nat),
    uuid_out_loop i bs =
      (if i = 4 ∨ i = 6 ∨ i = 8 ∨ i = 10 then
        if bs = [] then [] else ['-'] else []) ++ renderWith fCanon i bs := by
  intro bs
  induction bs with
  | nil => intro i; simp [uuid_out_loop, renderWith]
  | cons b bs ih =>
    intro i
    cases bs with
    | nil => simp [uuid_out_loop, renderWith]
    | cons b' bs' =>
      calc uuid_out_loop i (b :: b' :: bs')
          = (if i = 4 ∨ i = 6 ∨ i = 8 ∨ i = 10 then ['-'] else []) ++
              hexPair b ++ uuid_out_loop (i + 1) (b' :: bs') := rfl
        _ = (if i = 4 ∨ i = 6 ∨ i = 8 ∨ i = 10 then ['-'] else []) ++
              hexPair b ++ ((if fCanon i = true then ['-'] else []) ++
                renderWith fCanon (i + 1) (b' :: bs')) := by
            rw [ih (i + 1)]
            simp [fCanon]
        _ = _ := by simp [renderWith]

/-- `uuid_out` is the canonical rendering: hyphens exactly after bytes 3, 5,
7 and 9. -/
lemma uuid_out_eq_render (bs : List Nat) : uuid_out bs = renderWith fCanon 0 bs := by
  rw [uuid_out, uuid_out_loop_eq_render]
  simp

/-- Every character `renderWith` emits is a hyphen or a lowercase hex
digit. -/
lemma renderWith_chars (f : Nat → Bool) : ∀ (bs : List Nat) (i : Nat),
    (∀ b ∈ bs, b < 256) → ∀ c ∈ renderWith f i bs, c = '-' ∨ c ∈ hex_chars := by
  intro bs
  induction bs with
  | nil => intro i _ c hc; simp [renderWith] at hc
  | cons b bs ih =>
    intro i hb c hc
    have hb0 : b < 256 := hb b (by simp)
    cases bs with
    | nil =>
      simp [renderWith, hexPair] at hc
      rcases hc with rfl | rfl
      · exact Or.inr (hexChar_mem _ (by omega))
      · exact Or.inr (hexChar_mem _ (by omega))
    | cons b' bs' =>
      have hrest := ih (i + 1) (fun x hx => hb x (by simp [hx])) c
      by_cases hfi : f i = true
      · simp only [renderWith, hexPair, hfi, if_true, List.cons_append,
          List.nil_append, List.singleton_append, List.mem_cons] at hc
        rcases hc with rfl | rfl | rfl | hc
        · exact Or.inr (hexChar_mem _ (by omega))
        · exact Or.inr (hexChar_mem _ (by omega))
        · exact Or.inl rfl
        · exact hrest hc
      · replace hfi : f i = false := by simpa using hfi
        simp only [renderWith, hexPair, hfi, if_false, List.cons_append,
          List.nil_append, List.mem_cons] at hc
        rcases hc with rfl | rfl | hc
        · exact Or.inr (hexChar_mem _ (by omega))
        · exact Or.inr (hexChar_mem _ (by omega))
        · exact hrest hc

lemma exists_sixteen (bs : List Nat) (h : bs.length = 16) :
    ∃ b0 b1 b2 b3 b4 b5 b6 b7 b8 b9 b10 b11 b12 b13 b14 b15 : Nat,
      bs = [b0, b1, b2, b3, b4, b5, b6, b7, b8, b9, b10, b11, b12, b13, b14, b15] := by
  rcases bs with _ | ⟨b0, bs⟩; · simp only [List.length_nil] at h; omega
  rcases bs with _ | ⟨b1, bs⟩; · simp only [List.length_cons, List.length_nil] at h; omega
  rcases bs with _ | ⟨b2, bs⟩; · simp only [List.length_cons, List.length_nil] at h; omega
  rcases bs with _ | ⟨b3, bs⟩; · simp only [List.length_cons, List.length_nil] at h; omega
  rcases bs with _ | ⟨b4, bs⟩; · simp only [List.length_cons, List.length_nil] at h; omega
  rcases bs with _ | ⟨b5, bs⟩; · simp only [List.length_cons, List.length_nil] at h; omega
  rcases bs with _ | ⟨b6, bs⟩; · simp only [List.length_cons, List.length_nil] at h; omega
  rcases bs with _ | ⟨b7, bs⟩; · simp only [List.length_cons, List.length_nil] at h; omega
  rcases bs with _ | ⟨b8, bs⟩; · simp only [List.length_cons, List.length_nil] at h; omega
  rcases bs with _ | ⟨b9, bs⟩; · simp only [List.length_cons, List.length_nil] at h; omega
  rcases bs with _ | ⟨b10, bs⟩; · simp only [List.length_cons, List.length_nil] at h; omega
  rcases bs with _ | ⟨b11, bs⟩; · simp only [List.length_cons, List.length_nil] at h; omega
  rcases bs with _ | ⟨b12, bs⟩; · simp only [List.length_cons, List.length_nil] at h; omega
  rcases bs with _ | ⟨b13, bs⟩; · simp only [List.length_cons, List.length_nil] at h; omega
  rcases bs with _ | ⟨b14, bs⟩; · simp only [List.length_cons, List.length_nil] at h; omega
  rcases bs with _ | ⟨b15, bs⟩; · simp only [List.length_cons, List.length_nil] at h; omega
  rcases bs with _ | ⟨bx, bs⟩
  · exact ⟨b0, b1, b2, b3, b4, b5, b6, b7, b8, b9, b10, b11, b12, b13, b14, b15, rfl⟩
  · simp only [List.length_cons, List.length_nil] at h; omega

lemma beBytesVal_nil : beBytesVal [] = 0 := rfl

lemma beBytesVal_cons (b : Nat) (bs : List Nat) :
    beBytesVal (b :: bs) = b * 256 ^ bs.length + beBytesVal bs := rfl

lemma beBytesVal_lt : ∀ (bs : List Nat), (∀ b ∈ bs, b < 256) →
    beBytesVal bs < 256 ^ bs.length := by
  intro bs
  induction bs with
  | nil => intro _; simp [beBytesVal]
  | cons b bs ih =>
    intro hb
    have h1 : b < 256 := hb b (by simp)
    have h2 := ih (fun x hx => hb x (by simp [hx]))
    have hB : 0 < 256 ^ bs.length := Nat.pos_pow_of_pos _ (by norm_num)
    simp only [beBytesVal, List.length_cons]
    calc b * 256 ^ bs.length + beBytesVal bs
        < b * 256 ^ bs.length + 256 ^ bs.length := by omega
      _ = (b + 1) * 256 ^ bs.length := by ring
      _ ≤ 256 * 256 ^ bs.length := Nat.mul_le_mul_right _ (by omega)
      _ = 256 ^ (bs.length + 1) := by ring

lemma natCmp_eq_iff (a b : Nat) : natCmp a b = .eq ↔ a = b := by
  unfold natCmp
  split_ifs <;> simp <;> omega

lemma natCmp_add_left (c a b : Nat) : natCmp (c + a) (c + b) = natCmp a b := by
  unfold natCmp
  split_ifs <;> first | rfl | omega

/-- Comparing the big-endian values of two equal-length byte lists as
unsigned integers is the same as `memcmp` on the lists. -/
lemma natCmp_beBytesVal : ∀ (xs ys : List Nat), xs.length = ys.length →
    (∀ x ∈ xs, x < 256) → (∀ y ∈ ys, y < 256) →
    natCmp (beBytesVal xs) (beBytesVal ys) = memcmpBytes xs ys := by
  intro xs
  induction xs with
  | nil =>
    intro ys hlen _ _
    cases ys with
    | nil => simp [natCmp, memcmpBytes, beBytesVal]
    | cons y ys => simp at hlen
  | cons x xs ih =>
    intro ys hlen hx hy
    cases ys with
    | nil => simp at hlen
    | cons y ys =>
      have hlen' : xs.length = ys.length := by simpa using hlen
      have hx0 : x < 256 := hx x (by simp)
      have hy0 : y < 256 := hy y (by simp)
      have hxb := beBytesVal_lt xs (fun a ha => hx a (by simp [ha]))
      have hyb := beBytesVal_lt ys (fun a ha => hy a (by simp [ha]))
      rw [hlen'] at hxb
      have hB : 0 < 256 ^ ys.length := Nat.pos_pow_of_pos _ (by norm_num)
      simp only [beBytesVal, memcmpBytes, hlen']
      rcases Nat.lt_trichotomy x y with h | h | h
      · have hlt : x * 256 ^ ys.length + beBytesVal xs <
            y * 256 ^ ys.length + beBytesVal ys := by
          calc x * 256 ^ ys.length + beBytesVal xs
              < x * 256 ^ ys.length + 256 ^ ys.length := by omega
            _ = (x + 1) * 256 ^ ys.length := by ring
            _ ≤ y * 256 ^ ys.length := Nat.mul_le_mul_right _ h
            _ ≤ y * 256 ^ ys.length + beBytesVal ys := Nat.le_add_right _ _
        simp [natCmp, hlt, h]
      · subst h
        rw [natCmp_add_left]
        simp only [Nat.lt_irrefl, if_false]
        exact ih ys hlen' (fun a ha => hx a (by simp [ha])) (fun a ha => hy a (by simp [ha]))
      · have hgt : y * 256 ^ ys.length + beBytesVal ys <
            x * 256 ^ ys.length + beBytesVal xs := by
          calc y * 256 ^ ys.length + beBytesVal ys
              < y * 256 ^ ys.length + 256 ^ ys.length := by omega
            _ = (y + 1) * 256 ^ ys.length := by ring
            _ ≤ x * 256 ^ ys.length := Nat.mul_le_mul_right _ h
            _ ≤ x * 256 ^ ys.length + beBytesVal xs := Nat.le_add_right _ _
        simp [natCmp, hgt, h, Nat.lt_asymm hgt, Nat.lt_asymm h]

lemma memcmpBytes_eq_iff : ∀ (xs ys : List Nat), xs.length = ys.length →
    (memcmpBytes xs ys = .eq ↔ xs = ys) := by
  intro xs
  induction xs with
  | nil =>
    intro ys hlen
    cases ys with
    | nil => simp [memcmpBytes]
    | cons y ys => simp at hlen
  | cons x xs ih =>
    intro ys hlen
    cases ys with
    | nil => simp at hlen
    | cons y ys =>
      have hlen' : xs.length = ys.length := by simpa using hlen
      simp only [memcmpBytes]
      rcases Nat.lt_trichotomy x y with h | h | h
      · simp [h]; omega
      · subst h
        simp [ih ys hlen']
      · simp [h, Nat.lt_asymm h]; omega

/--
C1: the claim that successive `uuidv7` values are monotonically
non-decreasing (strictly increasing within one millisecond) under byte-wise
ordering fails on this code: `pg_strong_random(&uuid->data[8], UUID_LEN - 8)`
overwrites the counter bits already stored in byte 8, so two calls in the
same millisecond agree on bytes 0-7 while byte 8 onward is random.  At the
initial state, two calls with clock reading 1 ms, the first call's random
bytes all 0xFF and the second call's all 0x00, the second value compares
strictly below the first (byte 8 is 0x80 against 0xBF).
-/
theorem uuidv7_not_monotonic_eval :
    memcmpBytes
      (uuidv7_step (uuidv7_step ⟨0, 0⟩ 1 [255, 255, 255, 255, 255, 255, 255, 255]).1 1
        [0, 0, 0, 0, 0, 0, 0, 0]).2
      (uuidv7_step ⟨0, 0⟩ 1 [255, 255, 255, 255, 255, 255, 255, 255]).2 =
      Ordering.lt := by decide

/--
C2: the claim that the low 6 bits of byte 8 of the returned value equal the
low 6 bits of the sequence counter used by the call fails on this code: the
random fill starts at `&uuid->data[8]` and clobbers the counter bits, and
the final mask `(data[8] & 0x3F) | 0x80` preserves the random bits instead.
At the initial state with clock reading 1 ms (counter used = 0) and first
random byte 0x3F, byte 8's low 6 bits are 0x3F, not 0.
-/
theorem uuidv7_counter_bits_clobbered_eval :
    ((uuidv7_step ⟨0, 0⟩ 1 [63, 0, 0, 0, 0, 0, 0, 0]).2.getD 8 0) % 64 = 63 ∧
      (uuidv7_step ⟨0, 0⟩ 1 [63, 0, 0, 0, 0, 0, 0, 0]).1.sequence_counter % 64 = 0 := by
  decide

/--
C3: the claim that a genuinely advancing clock resets the counter to a
random 18-bit value with top bit cleared (nonzero for some random outcomes)
fails on this code: the `tms > previous_timestamp` branch executes
`sequence_counter = 0` unconditionally, for every random outcome (its own
comment says "read randomly initialized bits of counter").  The rest of the
claim holds: `previous_timestamp` is set to `tms` and `tms` is the
effective timestamp.  Evaluated at state (counter 5, timestamp 0) with
clock reading 7.
-/
theorem uuidv7_counter_reset_to_zero_eval :
    uuidv7_update ⟨5, 0⟩ 7 = (⟨0, 7⟩, 7) := by decide

/--
C4 counterexample: a hyphen after only 4 hex digits is accepted by
`string_to_uuid`, not rejected as a syntax error, so hyphens are not
restricted to the canonical 8-4-4-4-12 boundaries.
-/
theorem string_to_uuid_accepts_hyphen_after_four_digits :
    string_to_uuid ("550e-8400-e29b-41d4-a716-446655440000".toList) =
      some [0x55, 0x0e, 0x84, 0x00, 0xe2, 0x9b, 0x41, 0xd4,
        0xa7, 0x16, 0x44, 0x66, 0x55, 0x44, 0x00, 0x00] := by decide

/--
C4 (amended): `string_to_uuid` consumes an optional hyphen exactly after
output bytes of odd index below 15 — that is, after every multiple of 4 hex
digits (positions 4, 8, 12, 16, 20, 24, 28 of the 32-digit stream), never
after the final group.  For 16 rendered bytes: every hyphen placement that
uses only odd byte indices parses back to the bytes, and any placement with
a hyphen after an even byte index is a syntax error.
-/
theorem string_to_uuid_hyphen_rule (bs : List Nat) (f : Nat → Bool)
    (h16 : bs.length = 16) (hb : ∀ b ∈ bs, b < 256) :
    ((∀ k, k < 15 → f k = true → k % 2 = 1) →
       string_to_uuid (renderWith f 0 bs) = some bs) ∧
    (∀ k, k < 15 → f k = true → k % 2 = 0 →
       string_to_uuid (renderWith f 0 bs) = none) :=
  ⟨fun h => string_to_uuid_renderWith f bs h16 hb h,
   fun k hk hf he => string_to_uuid_renderWith_bad f bs h16 hb k hk hf he⟩

/--
Witness for C4's amended theorem at concrete inputs: a hyphen after byte 1
(four hex digits) is consumed and the bytes round-trip; a hyphen after byte
2 (six hex digits) is a syntax error.
-/
theorem string_to_uuid_hyphen_rule_witness :
    string_to_uuid (renderWith (fun k => decide (k = 1)) 0
        [0x55, 0x0e, 0x84, 0x00, 0xe2, 0x9b, 0x41, 0xd4,
          0xa7, 0x16, 0x44, 0x66, 0x55, 0x44, 0x00, 0x00]) =
      some [0x55, 0x0e, 0x84, 0x00, 0xe2, 0x9b, 0x41, 0xd4,
        0xa7, 0x16, 0x44, 0x66, 0x55, 0x44, 0x00, 0x00] ∧
    string_to_uuid (renderWith (fun k => decide (k = 2)) 0
        [0x55, 0x0e, 0x84, 0x00, 0xe2, 0x9b, 0x41, 0xd4,
          0xa7, 0x16, 0x44, 0x66, 0x55, 0x44, 0x00, 0x00]) = none :=
  ⟨(string_to_uuid_hyphen_rule
      [0x55, 0x0e, 0x84, 0x00, 0xe2, 0x9b, 0x41, 0xd4,
        0xa7, 0x16, 0x44, 0x66, 0x55, 0x44, 0x00, 0x00]
      (fun k => decide (k = 1)) (by decide) (by decide)).1 (by decide),
   (string_to_uuid_hyphen_rule
      [0x55, 0x0e, 0x84, 0x00, 0xe2, 0x9b, 0x41, 0xd4,
        0xa7, 0x16, 0x44, 0x66, 0x55, 0x44, 0x00, 0x00]
      (fun k => decide (k = 2)) (by decide) (by decide)).2 2 (by decide) (by decide)
      (by decide)⟩

/--
C5 counterexample: the pair `(previous_timestamp, sequence_counter)` is not
non-decreasing for every clock reading — at the state reached after a clock
reading of `2 ^ 64 - 1` milliseconds followed by `2 ^ 18` stalled-clock
calls (counter at 0x3FFFF), one more stalled-clock call overflows the
counter and wraps the 64-bit `previous_timestamp++` to 0, so the pair drops
from `(2 ^ 64 - 1, 0x3FFFF)` to `(0, 0)`.
-/
theorem uuidv7_state_pair_wraparound_counterexample :
    ¬ pairLE ⟨0x3ffff, 2 ^ 64 - 1⟩ (uuidv7_update ⟨0x3ffff, 2 ^ 64 - 1⟩ 0).1 := by
  decide

/--
C5 (amended): every call to `uuidv7` leaves
`(previous_timestamp, sequence_counter)` greater than or equal to its
pre-call value in lexicographic order, for every clock reading and random
outcome, provided no 64-bit wraparound of `previous_timestamp + 1` occurs
in the call and the counter satisfies its 18-bit invariant
`sequence_counter ≤ 0x3FFFF` — an invariant the call re-establishes, and
which holds in every reachable state (the counter is only ever zeroed or
incremented with immediate reset past 0x3FFFF from the initial value 0).
-/
theorem uuidv7_state_pair_monotonic (st : GenState) (tms0 : Nat)
    (hsc : st.sequence_counter ≤ 0x3ffff)
    (hpt : st.previous_timestamp + 1 < 2 ^ 64) :
    pairLE st (uuidv7_update st tms0).1 ∧
      (uuidv7_update st tms0).1.sequence_counter ≤ 0x3ffff := by
  unfold uuidv7_update pairLE
  dsimp only
  split_ifs with h1 h2 <;> simp_all <;> omega

/-- Witness for C5's amended theorem: from the initial state with clock
reading 5 the pair does not decrease and the counter invariant holds. -/
theorem uuidv7_state_pair_monotonic_witness :
    pairLE ⟨0, 0⟩ (uuidv7_update ⟨0, 0⟩ 5).1 ∧
      (uuidv7_update ⟨0, 0⟩ 5).1.sequence_counter ≤ 0x3ffff :=
  uuidv7_state_pair_monotonic ⟨0, 0⟩ 5 (by decide) (by norm_num)

/--
C6: for every 16-byte value, `uuid_out` produces exactly 36 characters,
with hyphens at character positions 8, 13, 18 and 23 (the 8-4-4-4-12
grouping), every character a hyphen or a lowercase hex digit (so no
braces), and `string_to_uuid` applied to that output returns exactly the
original bytes.
-/
theorem uuid_out_canonical_and_roundtrip (bs : List Nat) (h16 : bs.length = 16)
    (hb : ∀ b ∈ bs, b < 256) :
    (uuid_out bs).length = 36 ∧
    (uuid_out bs).getD 8 'x' = '-' ∧ (uuid_out bs).getD 13 'x' = '-' ∧
    (uuid_out bs).getD 18 'x' = '-' ∧ (uuid_out bs).getD 23 'x' = '-' ∧
    (∀ c ∈ uuid_out bs, c = '-' ∨ c ∈ hex_chars) ∧
    string_to_uuid (uuid_out bs) = some bs := by
  obtain ⟨b0, b1, b2, b3, b4, b5, b6, b7, b8, b9, b10, b11, b12, b13, b14, b15, rfl⟩ :=
    exists_sixteen bs h16
  refine ⟨?_, ?_, ?_, ?_, ?_, ?_, ?_⟩
  · simp [uuid_out, uuid_out_loop, hexPair]
  · simp [uuid_out, uuid_out_loop, hexPair]
  · simp [uuid_out, uuid_out_loop, hexPair]
  · simp [uuid_out, uuid_out_loop, hexPair]
  · simp [uuid_out, uuid_out_loop, hexPair]
  · rw [uuid_out_eq_render]
    exact renderWith_chars fCanon _ 0 hb
  · rw [uuid_out_eq_render]
    exact string_to_uuid_renderWith fCanon _ h16 hb (by decide)

/-- Witness for C6 at the all-zero value. -/
theorem uuid_out_canonical_and_roundtrip_witness :
    (uuid_out [0, 0, 0, 0, 0, 0, 0, 0, 0, 0, 0, 0, 0, 0, 0, 0]).length = 36 ∧
    (uuid_out [0, 0, 0, 0, 0, 0, 0, 0, 0, 0, 0, 0, 0, 0, 0, 0]).getD 8 'x' = '-' ∧
    (uuid_out [0, 0, 0, 0, 0, 0, 0, 0, 0, 0, 0, 0, 0, 0, 0, 0]).getD 13 'x' = '-' ∧
    (uuid_out [0, 0, 0, 0, 0, 0, 0, 0, 0, 0, 0, 0, 0, 0, 0, 0]).getD 18 'x' = '-' ∧
    (uuid_out [0, 0, 0, 0, 0, 0, 0, 0, 0, 0, 0, 0, 0, 0, 0, 0]).getD 23 'x' = '-' ∧
    (∀ c ∈ uuid_out [0, 0, 0, 0, 0, 0, 0, 0, 0, 0, 0, 0, 0, 0, 0, 0],
      c = '-' ∨ c ∈ hex_chars) ∧
    string_to_uuid (uuid_out [0, 0, 0, 0, 0, 0, 0, 0, 0, 0, 0, 0, 0, 0, 0, 0]) =
      some [0, 0, 0, 0, 0, 0, 0, 0, 0, 0, 0, 0, 0, 0, 0, 0] :=
  uuid_out_canonical_and_roundtrip [0, 0, 0, 0, 0, 0, 0, 0, 0, 0, 0, 0, 0, 0, 0, 0]
    (by decide) (by decide)

/--
C7: `uuid_abbrev_abort` returns false (leaving the state unchanged)
whenever the buffered row count is below 10000, the estimator has seen
fewer than 10000 inputs, or estimating is off; otherwise, if the estimated
distinct count exceeds 100000 it clears the estimating flag and returns
false, and every later call on that state returns false; otherwise it
returns true exactly when the estimate is below `input_count / 2000 + 0.5`,
leaving the state unchanged.
-/
theorem uuid_abbrev_abort_spec (mc : Int) (est : ℚ) (uss : UuidSortState) :
    ((mc < 10000 ∨ uss.input_count < 10000 ∨ uss.estimating = false) →
       uuid_abbrev_abort mc est uss = (false, uss)) ∧
    (10000 ≤ mc → 10000 ≤ uss.input_count → uss.estimating = true →
       (100000 < est →
          uuid_abbrev_abort mc est uss = (false, { uss with estimating := false }) ∧
            ∀ (mc2 : Int) (est2 : ℚ),
              (uuid_abbrev_abort mc2 est2 { uss with estimating := false }).1 = false) ∧
       (est ≤ 100000 →
          ((uuid_abbrev_abort mc est uss).1 = true ↔
             est < (uss.input_count : ℚ) / 2000 + 1 / 2) ∧
            (uuid_abbrev_abort mc est uss).2 = uss)) := by
  constructor
  · intro h
    unfold uuid_abbrev_abort
    rw [if_pos h]
  · intro h1 h2 h3
    have hcond : ¬(mc < 10000 ∨ uss.input_count < 10000 ∨ uss.estimating = false) := by
      push_neg
      exact ⟨by omega, by omega, by simp [h3]⟩
    constructor
    · intro h4
      constructor
      · unfold uuid_abbrev_abort
        rw [if_neg hcond, if_pos h4]
      · intro mc2 est2
        unfold uuid_abbrev_abort
        rw [if_pos (Or.inr (Or.inr rfl))]
    · intro h4
      constructor
      · unfold uuid_abbrev_abort
        rw [if_neg hcond, if_neg (not_lt.mpr h4)]
        split_ifs with h5
        · simp [h5]
          linarith
        · simp [h5]
          rw [not_lt] at h5
          linarith
      · unfold uuid_abbrev_abort
        rw [if_neg hcond, if_neg (not_lt.mpr h4)]
        split_ifs <;> rfl

/--
Witness for C7: below the row threshold the call is a no-op; above both
thresholds with estimating on and estimate 3 (below 10000 / 2000 + 0.5 =
5.5) the call aborts.
-/
theorem uuid_abbrev_abort_spec_witness :
    uuid_abbrev_abort 9999 3 ⟨20000, true⟩ = (false, ⟨20000, true⟩) ∧
      (uuid_abbrev_abort 10000 3 ⟨10000, true⟩).1 = true :=
  ⟨(uuid_abbrev_abort_spec 9999 3 ⟨20000, true⟩).1 (by norm_num),
   (((uuid_abbrev_abort_spec 10000 3 ⟨10000, true⟩).2 (by norm_num) (by norm_num)
        rfl).2 (by norm_num)).1.mpr (by norm_num)⟩

/--
C8: `uuid_abbrev_convert` is order-preserving — unsigned comparison of the
abbreviated words gives the same three-way result as the unsigned byte-wise
comparison of the two 8-byte (sizeof(Datum)) prefixes, and the words are
equal exactly when the prefixes are byte-identical.
-/
theorem uuid_abbrev_convert_order_preserving (a b : List Nat)
    (ha16 : a.length = 16) (hb16 : b.length = 16)
    (ha : ∀ x ∈ a, x < 256) (hb : ∀ x ∈ b, x < 256) :
    natCmp (uuid_abbrev_convert a) (uuid_abbrev_convert b) =
      memcmpBytes (a.take 8) (b.take 8) ∧
    (uuid_abbrev_convert a = uuid_abbrev_convert b ↔ a.take 8 = b.take 8) := by
  have hla : (a.take 8).length = 8 := by simp [ha16]
  have hlb : (b.take 8).length = 8 := by simp [hb16]
  have hba : ∀ x ∈ a.take 8, x < 256 := fun x hx => ha x (List.take_subset _ _ hx)
  have hbb : ∀ x ∈ b.take 8, x < 256 := fun x hx => hb x (List.take_subset _ _ hx)
  have hcmp := natCmp_beBytesVal (a.take 8) (b.take 8) (by rw [hla, hlb]) hba hbb
  refine ⟨hcmp, ?_⟩
  rw [uuid_abbrev_convert, uuid_abbrev_convert, ← natCmp_eq_iff, hcmp,
    memcmpBytes_eq_iff _ _ (by rw [hla, hlb])]

/-- Witness for C8 at two values differing first in byte 5. -/
theorem uuid_abbrev_convert_order_preserving_witness :
    natCmp (uuid_abbrev_convert [1, 2, 3, 4, 5, 6, 7, 8, 9, 10, 11, 12, 13, 14, 15, 16])
        (uuid_abbrev_convert [1, 2, 3, 4, 5, 7, 0, 0, 0, 0, 0, 0, 0, 0, 0, 0]) =
      memcmpBytes ([1, 2, 3, 4, 5, 6, 7, 8, 9, 10, 11, 12, 13, 14, 15, 16].take 8)
        ([1, 2, 3, 4, 5, 7, 0, 0, 0, 0, 0, 0, 0, 0, 0, 0].take 8) ∧
    (uuid_abbrev_convert [1, 2, 3, 4, 5, 6, 7, 8, 9, 10, 11, 12, 13, 14, 15, 16] =
        uuid_abbrev_convert [1, 2, 3, 4, 5, 7, 0, 0, 0, 0, 0, 0, 0, 0, 0, 0] ↔
      [1, 2, 3, 4, 5, 6, 7, 8, 9, 10, 11, 12, 13, 14, 15, 16].take 8 =
        [1, 2, 3, 4, 5, 7, 0, 0, 0, 0, 0, 0, 0, 0, 0, 0].take 8) :=
  uuid_abbrev_convert_order_preserving
    [1, 2, 3, 4, 5, 6, 7, 8, 9, 10, 11, 12, 13, 14, 15, 16]
    [1, 2, 3, 4, 5, 7, 0, 0, 0, 0, 0, 0, 0, 0, 0, 0]
    (by decide) (by decide) (by decide) (by decide)

/--
C9: `uuid_extract_timestamp` returns absent — never an error — whenever the
variant bits (top two of byte 8) are not `10` or the version nibble (top
four of byte 6) is not 1, 6 or 7; and when the variant is `10` and the
version is 7 it returns the big-endian 48-bit value of bytes 0-5 as
milliseconds since the Unix epoch, converted to the engine's epoch by exact
integer arithmetic.
-/
theorem uuid_extract_timestamp_spec (u : List Nat) (h16 : u.length = 16)
    (hb : ∀ x ∈ u, x < 256) :
    ((u.getD 8 0 / 64 % 4 ≠ 2 ∨
        ¬(u.getD 6 0 / 16 = 1 ∨ u.getD 6 0 / 16 = 6 ∨ u.getD 6 0 / 16 = 7)) →
       uuid_extract_timestamp u = none) ∧
    (u.getD 8 0 / 64 % 4 = 2 → u.getD 6 0 / 16 = 7 →
       uuid_extract_timestamp u =
         some ((beBytesVal (u.take 6) : Int) * 1000 -
           (POSTGRES_EPOCH_JDATE - UNIX_EPOCH_JDATE) * SECS_PER_DAY * USECS_PER_SEC)) := by
  obtain ⟨b0, b1, b2, b3, b4, b5, b6, b7, b8, b9, b10, b11, b12, b13, b14, b15, rfl⟩ :=
    exists_sixteen u h16
  have hb6 : b6 < 256 := hb b6 (by simp)
  have hid : b6 / 16 % 16 = b6 / 16 := Nat.mod_eq_of_lt (by omega)
  constructor
  · rintro (h | h)
    · simp only [List.getD] at h
      simp at h
      unfold uuid_extract_timestamp
      simp [h]
    · push_neg at h
      obtain ⟨h1, h6, h7⟩ := h
      simp only [List.getD] at h1 h6 h7
      simp at h1 h6 h7
      unfold uuid_extract_timestamp
      by_cases hv : b8 / 64 % 4 = 2
      · simp [hv, hid, h1, h6, h7]
      · simp [hv]
  · intro hvar hver
    simp only [List.getD] at hvar hver
    simp at hvar hver
    unfold uuid_extract_timestamp
    simp [hvar, hid, hver]
    have hbe : beBytesVal [b0, b1, b2, b3, b4, b5] =
        b0 * 1099511627776 + b1 * 4294967296 + b2 * 16777216 + b3 * 65536 +
          b4 * 256 + b5 := by
      simp only [beBytesVal_cons, beBytesVal_nil, List.length_cons, List.length_nil]
      norm_num
      ring
    rw [hbe]
    push_cast
    ring

/-- Witness for C9: the all-zero nil value (variant bits `00`) extracts to
absent. -/
theorem uuid_extract_timestamp_spec_witness :
    uuid_extract_timestamp [0, 0, 0, 0, 0, 0, 0, 0, 0, 0, 0, 0, 0, 0, 0, 0] = none :=
  (uuid_extract_timestamp_spec [0, 0, 0, 0, 0, 0, 0, 0, 0, 0, 0, 0, 0, 0, 0, 0]
      (by decide) (by decide)).1 (by decide)

/--
C10: for every generator state, clock reading and random outcome whose
effective millisecond timestamp is below `2 ^ 48`, extracting the timestamp
from the value `uuidv7` just returned never yields absent and recovers
exactly the effective timestamp written into bytes 0-5 (the generated
version nibble is always 0111 and the variant bits always 10), converted to
the engine's epoch.
-/
theorem uuidv7_extract_timestamp_roundtrip (st : GenState) (tms0 : Nat)
    (r0 r1 r2 r3 r4 r5 r6 r7 : Nat)
    (h48 : (uuidv7_update st tms0).2 < 2 ^ 48) :
    uuid_extract_timestamp (uuidv7_step st tms0 [r0, r1, r2, r3, r4, r5, r6, r7]).2 =
      some (((uuidv7_update st tms0).2 : Int) * 1000 -
        (POSTGRES_EPOCH_JDATE - UNIX_EPOCH_JDATE) * SECS_PER_DAY * USECS_PER_SEC) := by
  rcases hupd : uuidv7_update st tms0 with ⟨st', eff⟩
  rw [hupd] at h48
  simp only at h48
  have hstep : (uuidv7_step st tms0 [r0, r1, r2, r3, r4, r5, r6, r7]).2 =
      uuidv7_bytes eff st'.sequence_counter [r0, r1, r2, r3, r4, r5, r6, r7] := by
    simp [uuidv7_step, hupd]
  rw [hstep]
  dsimp only
  have hv : (r0 % 64 + 128) / 64 % 4 = 2 := by omega
  have h6 : (st'.sequence_counter / 16384 % 256 % 16 + 112) / 16 % 16 = 7 := by omega
  simp [uuidv7_bytes, uuid_extract_timestamp, hv, h6,
    POSTGRES_EPOCH_JDATE, UNIX_EPOCH_JDATE, SECS_PER_DAY, USECS_PER_SEC]
  omega

/-- Witness for C10 at the initial state with a realistic clock reading. -/
theorem uuidv7_extract_timestamp_roundtrip_witness :
    uuid_extract_timestamp
        (uuidv7_step ⟨0, 0⟩ 1700000000000 [1, 2, 3, 4, 5, 6, 7, 8]).2 =
      some (((uuidv7_update ⟨0, 0⟩ 1700000000000).2 : Int) * 1000 -
        (POSTGRES_EPOCH_JDATE - UNIX_EPOCH_JDATE) * SECS_PER_DAY * USECS_PER_SEC) :=
  uuidv7_extract_timestamp_roundtrip ⟨0, 0⟩ 1700000000000 1 2 3 4 5 6 7 8 (by decide)

end PgUuid
